import Mathlib

/-!
Verification development for the streamer-info driven binary object
serialization engine (class descriptors, compiled read/write action
sequences, schema evolution) and the socket-side streamer-info
deduplication of TSocket.

The repository slice only declares the TStreamerInfo operations
(src/io/io/inc/TStreamerInfo.h); their implementations are modelled from
the specification where noted.  TSocket::SendStreamerInfos
(src/net/net/src/TSocket.cxx) is embedded directly from the source.
-/

set_option maxHeartbeats 1000000

/-- Semantic type tag of a primitive element (subset of the type codes of
TStreamerInfo; the sizes mirror 1-, 2- and 4-byte machine types). -/
inductive PrimKind
  | pChar
  | pShort
  | pInt
deriving DecidableEq

/-- Byte width of a primitive kind. -/
def PrimKind.size : PrimKind → Nat
  | .pChar => 1
  | .pShort => 2
  | .pInt => 4

/-- Injective numeric code of a primitive kind (used by the checksum). -/
def PrimKind.code : PrimKind → Nat
  | .pChar => 0
  | .pShort => 1
  | .pInt => 2

/-- Modelled from the spec: the Buffer Cursor writes multi-byte values in
network byte order (big-endian); src/ only declares the buffer interface.
Encodes a value into exactly w bytes, most significant first. -/
def encodeBE : Nat → Nat → List Nat
  | 0, _ => []
  | w + 1, v => v / 256 ^ w % 256 :: encodeBE w v

/-- Modelled from the spec: big-endian decoding by the Buffer Cursor. -/
def decodeBE (bs : List Nat) : Nat :=
  bs.foldl (fun acc b => acc * 256 + b) 0

/-- Element descriptor: one data member's serialization metadata
(TStreamerElement as described by the spec data model: name, semantic type
tag, element count, transient flag, and non-structural documentation). -/
structure StreamerElement where
  name : String
  ty : PrimKind
  len : Nat
  transient : Bool
  title : String
deriving DecidableEq

/-- Modelled from the spec: writing a run of primitive values of one kind
(the body of a copy-primitive / copy-primitive-array write action). -/
def writeValues (sz : Nat) : List Nat → List Nat
  | [] => []
  | v :: vs => encodeBE sz v ++ writeValues sz vs

/-- Modelled from the spec: the write action of one element.  Transient
members are not written (WriteBufferAux streams only persistent members). -/
def writeElement (e : StreamerElement) (vs : List Nat) : List Nat :=
  if e.transient then [] else writeValues e.ty.size vs

/-- Modelled from the spec: WriteBufferAux executing the compiled write
actions of a class descriptor element-by-element on one instance, whose
member values are given per element. -/
def writeInstance : List StreamerElement → List (List Nat) → List Nat
  | [], _ => []
  | _ :: _, [] => []
  | e :: es, vs :: vss => writeElement e vs ++ writeInstance es vss

/-- Modelled from the spec: reading a run of primitive values of one kind
from the buffer; fails (None) when the buffer is too short. -/
def readValues (sz : Nat) : Nat → List Nat → Option (List Nat × List Nat)
  | 0, bs => some ([], bs)
  | n + 1, bs =>
    if bs.length < sz then none
    else
      match readValues sz n (bs.drop sz) with
      | some (vs, rest) => some (decodeBE (bs.take sz) :: vs, rest)
      | none => none

/-- Modelled from the spec: ReadBuffer executing the compiled read actions
of a class descriptor; transient members are not on file and come back
default-initialized, persistent members are decoded in declaration order. -/
def readInstance : List StreamerElement → List Nat → Option (List (List Nat) × List Nat)
  | [], bs => some ([], bs)
  | e :: es, bs =>
    if e.transient then
      match readInstance es bs with
      | some (vss, rest) => some (List.replicate e.len 0 :: vss, rest)
      | none => none
    else
      match readValues e.ty.size e.len bs with
      | some (vs, rest) =>
        match readInstance es rest with
        | some (vss, r2) => some (vs :: vss, r2)
        | none => none
      | none => none

/-- One member value list is valid for an element when it has the declared
count and every value fits in the element's byte width. -/
def validValue (e : StreamerElement) (vs : List Nat) : Prop :=
  vs.length = e.len ∧ ∀ x ∈ vs, x < 256 ^ e.ty.size

/-- An instance is valid for a descriptor when its member value lists match
the element list pointwise. -/
def validInstance (es : List StreamerElement) (vss : List (List Nat)) : Prop :=
  List.Forall₂ validValue es vss

/-- Observable equality of two instances of one descriptor: equal values in
every non-transient member. -/
def observEq : List StreamerElement → List (List Nat) → List (List Nat) → Prop
  | [], [], [] => True
  | e :: es, v :: vs, w :: ws => (e.transient = false → v = w) ∧ observEq es vs ws
  | _, _, _ => False

/-- Outcome of reading one length-prefixed, version-prefixed record. -/
inductive ReadOutcome
  | ok (obj : List (List Nat)) (consumed : Nat)
  | skipVersion (consumed : Nat)
  | truncated
deriving DecidableEq

/-- Modelled from the spec: ReadBuffer on one record of the Buffer Cursor.
The record header declares an on-file class version and a byte count.  An
undersized buffer is a fatal truncation; an unrecognized version is
recoverable by skipping the declared byte count; otherwise the compiled
read actions decode the payload (a short payload is again a truncation). -/
def readBufferRecord (es : List StreamerElement) (descVersion onFileVersion declaredCount : Nat)
    (bytes : List Nat) : ReadOutcome :=
  if bytes.length < declaredCount then .truncated
  else if onFileVersion ≠ descVersion then .skipVersion declaredCount
  else
    match readInstance es (bytes.take declaredCount) with
    | some (obj, _) => .ok obj declaredCount
    | none => .truncated

/-- Consumed-bytes counter reported to the caller: negative on a fatal
truncation, the number of consumed bytes otherwise. -/
def consumedBytes : ReadOutcome → Int
  | .ok _ n => (n : Int)
  | .skipVersion n => (n : Int)
  | .truncated => -1

/-- Object produced by a read outcome, if any. -/
def producedObject : ReadOutcome → Option (List (List Nat))
  | .ok obj _ => some obj
  | _ => none

/-- Structural part of an element: the attributes participating in the
checksum (name and type, with the array length part of the type); the
documentation title and the transient flag do not participate. -/
def structuralPart (e : StreamerElement) : String × PrimKind × Nat :=
  (e.name, e.ty, e.len)

/-- Injective encoding of a list of naturals (used by the checksum). -/
def encListNat : List Nat → Nat
  | [] => 0
  | x :: xs => Nat.pair x (encListNat xs) + 1

/-- Modelled from the spec: the per-element contribution to GetCheckSum,
a hash over the element's name and type. -/
def elemCode (e : StreamerElement) : Nat :=
  Nat.pair (encListNat (e.name.toList.map Char.toNat)) (Nat.pair e.ty.code e.len)

/-- Modelled from the spec: GetCheckSum, the structural hash over element
names and types of a class layout; src/ only declares it. -/
def getCheckSum (es : List StreamerElement) : Nat :=
  encListNat (es.map elemCode)

/-- One canonical registry entry: a (class name, checksum) key mapped to
the identity of the canonical descriptor instance for that key. -/
structure RegEntry where
  name : String
  checksum : Nat
  descId : Nat
deriving DecidableEq

/-- Look up the canonical descriptor registered for a (name, checksum). -/
def findCanonical : List RegEntry → String → Nat → Option Nat
  | [], _, _ => none
  | e :: rest, n, c =>
    if e.name = n ∧ e.checksum = c then some e.descId else findCanonical rest n c

/-- Modelled from the spec: BuildCheck reconciling a descriptor read from a
file against the registry; a matching checksum supersedes the file copy by
the canonical instance, an unmatched checksum registers a new canonical
version.  Returns the new registry and the surviving descriptor identity. -/
def buildCheck (reg : List RegEntry) (n : String) (c : Nat) (fileId : Nat) :
    List RegEntry × Nat :=
  match findCanonical reg n c with
  | some canonical => (reg, canonical)
  | none => (reg ++ [⟨n, c, fileId⟩], fileId)

/-- Run a sequence of BuildCheck calls, each giving the file descriptor's
class name, checksum and the identity of the file's in-memory copy. -/
def runBuildChecks (reg : List RegEntry) : List (String × Nat × Nat) → List RegEntry
  | [] => reg
  | (n, c, fid) :: rest => runBuildChecks (buildCheck reg n c fid).1 rest

/-- Number of canonical registry entries for a (name, checksum) pair. -/
def countCanonical (reg : List RegEntry) (n : String) (c : Nat) : Nat :=
  (reg.filter (fun e => e.name == n && e.checksum == c)).length

/-- Compiled read action: decode a primitive run into memory, or skip a
known number of on-file bytes with no target memory. -/
inductive ReadAction
  | readPrim (ty : PrimKind) (len : Nat)
  | skipBytes (n : Nat)
deriving DecidableEq

/-- On-file byte size of one element, derived from the element's own type
and length. -/
def elemByteSize (e : StreamerElement) : Nat :=
  e.ty.size * e.len

/-- Total on-file byte size of a record written under a descriptor. -/
def totalOnFileSize (es : List StreamerElement) : Nat :=
  (es.map elemByteSize).sum

/-- Modelled from the spec: compiling one on-file element against the
in-memory member names; an element present in memory becomes a read
action, an extra on-file element becomes a skip action whose byte count
comes from the on-file element's own type and length (ReadBufferSkip). -/
def compileReadElem (names : List String) (e : StreamerElement) : ReadAction :=
  if e.name ∈ names then .readPrim e.ty e.len else .skipBytes (elemByteSize e)

/-- Modelled from the spec: the compiled read action sequence for a buffer
written under the on-file element list, read with an in-memory descriptor
holding the given member names. -/
def compileRead (onFile : List StreamerElement) (names : List String) : List ReadAction :=
  onFile.map (compileReadElem names)

/-- Modelled from the spec: execute compiled read actions against a byte
buffer, returning the remaining bytes (the cursor position) on success. -/
def runReadActions : List ReadAction → List Nat → Option (List Nat)
  | [], bs => some bs
  | .readPrim ty len :: as, bs =>
    if bs.length < ty.size * len then none
    else runReadActions as (bs.drop (ty.size * len))
  | .skipBytes n :: as, bs =>
    if bs.length < n then none
    else runReadActions as (bs.drop n)

/-- The four compiled action-sequence variants owned by a descriptor
(object-wise and member-wise, read and write). -/
structure ActionSequences where
  readObjectWise : List ReadAction
  readMemberWise : List ReadAction
  writeObjectWise : List (PrimKind × Nat)
  writeMemberWise : List (PrimKind × Nat)
deriving DecidableEq

/-- Modelled from the spec: the action compiler populating the four
variants by walking the element list. -/
def compileActions (es : List StreamerElement) : ActionSequences where
  readObjectWise := es.map (fun e => .readPrim e.ty e.len)
  readMemberWise := es.map (fun e => .readPrim e.ty e.len)
  writeObjectWise := es.map (fun e => (e.ty, e.len))
  writeMemberWise := es.map (fun e => (e.ty, e.len))

/-- Mutable state of one class descriptor: its element list, its compiled
action sequences when Compile has run, and whether a layout change has
invalidated the compiled sequences. -/
structure DescriptorState where
  elements : List StreamerElement
  actions : Option ActionSequences
  invalidated : Bool
deriving DecidableEq

/-- Modelled from the spec: Compile populates the four action-sequence
variants on first use; a later call is a no-op unless the descriptor has
been invalidated. -/
def compileDescriptor (d : DescriptorState) : DescriptorState :=
  match d.actions with
  | some _ =>
    if d.invalidated then
      { d with actions := some (compileActions d.elements), invalidated := false }
    else d
  | none => { d with actions := some (compileActions d.elements), invalidated := false }

/-- A schema evolution rule: the target member it sets and the source
member type it expects. -/
structure SchemaRule where
  target : String
  sourceType : PrimKind
deriving DecidableEq

/-- Modelled from the spec: the BuildFor rule walk.  Rules are processed
in precedence order; a rule whose target member is already claimed by an
earlier (higher-precedence) rule is ignored and reported as a warning
naming the target, and processing continues. -/
def buildForAux (claimed : List String) : List SchemaRule → List SchemaRule × List String
  | [] => ([], [])
  | r :: rs =>
    if r.target ∈ claimed then
      ((buildForAux claimed rs).1, r.target :: (buildForAux claimed rs).2)
    else
      (r :: (buildForAux (r.target :: claimed) rs).1, (buildForAux (r.target :: claimed) rs).2)

/-- Modelled from the spec: BuildFor resolving the applicable evolution
rules; returns the applied rules and the conflict warnings. -/
def buildForRules (rules : List SchemaRule) : List SchemaRule × List String :=
  buildForAux [] rules

/-- Modelled from the spec: execute a write item list (one item per
primitive element or fused run: a type and the values it covers). -/
def execWriteItems : List (PrimKind × List Nat) → List Nat
  | [] => []
  | (t, vs) :: rest => writeValues t.size vs ++ execWriteItems rest

/-- Modelled from the spec: the action compiler's batching optimization,
fusing contiguous runs of primitive elements of the same type into a
single array-copy item. -/
def fuseItems : List (PrimKind × List Nat) → List (PrimKind × List Nat)
  | [] => []
  | (t, vs) :: rest =>
    match fuseItems rest with
    | [] => [(t, vs)]
    | (u, ws) :: out =>
      if t = u then (t, vs ++ ws) :: out else (t, vs) :: (u, ws) :: out

/-- One live descriptor instance published to the registry, identified by
its class name and version. -/
structure DescInstance where
  name : String
  version : Nat
  compiled : Bool
deriving DecidableEq

/-- Operations on the process-wide descriptor registry, as exposed by the
TStreamerInfo interface: publishing a newly built descriptor, compiling a
published one in place, and updating nested links in place.  The interface
deletes the copy constructor and copy assignment (TStreamerInfo.h:124-125),
so no copy operation exists. -/
inductive RegistryOp
  | publish (name : String) (version : Nat)
  | compileInPlace (name : String) (version : Nat)
  | updateLinks (name : String) (version : Nat)
deriving DecidableEq

/-- Modelled from the spec: effect of one registry operation.  Publishing
is a no-op when a canonical instance of that (name, version) exists;
compiling and updating mutate the existing instance in place and create
no instance. -/
def applyRegistryOp (reg : List DescInstance) : RegistryOp → List DescInstance
  | .publish n v =>
    if reg.any (fun d => d.name == n && d.version == v) then reg
    else reg ++ [⟨n, v, false⟩]
  | .compileInPlace n v =>
    reg.map (fun d => if d.name == n && d.version == v then { d with compiled := true } else d)
  | .updateLinks _ _ => reg

/-- Run a sequence of registry operations. -/
def runRegistryOps (reg : List DescInstance) (ops : List RegistryOp) : List DescInstance :=
  ops.foldl applyRegistryOp reg

/-- Number of registry instances with a given (name, version). -/
def countInstances (reg : List DescInstance) (n : String) (v : Nat) : Nat :=
  (reg.filter (fun d => d.name == n && d.version == v)).length

/-- State of one TSocket relevant to SendStreamerInfos: the per-socket bit
set fBitsInfo of already-sent streamer-info numbers, and the log of sent
kMESS_STREAMERINFO messages (each a list of streamer-info numbers). -/
structure SocketState where
  bitsInfo : List Nat
  sentMessages : List (List Nat)
deriving DecidableEq

/-- TBits::TestBitNumber on the modelled bit set. -/
def testBitNumber (bits : List Nat) (uid : Nat) : Bool :=
  decide (uid ∈ bits)

/-- TBits::SetBitNumber on the modelled bit set. -/
def setBitNumber (bits : List Nat) (uid : Nat) : List Nat :=
  if uid ∈ bits then bits else uid :: bits

/-- The while loop of TSocket::SendStreamerInfos: walk the message's
streamer-info numbers; one whose bit is already set is skipped, otherwise
its bit is set and it is added to the minilist. -/
def collectInfos (bits : List Nat) : List Nat → List Nat × List Nat
  | [] => (bits, [])
  | uid :: rest =>
    if testBitNumber bits uid then collectInfos bits rest
    else
      ((collectInfos (setBitNumber bits uid) rest).1,
        uid :: (collectInfos (setBitNumber bits uid) rest).2)

/-- TSocket::SendStreamerInfos (src/net/net/src/TSocket.cxx:641-669): when
the message carries streamer infos, those not yet sent on this socket are
collected into a minilist; a non-empty minilist is sent as one
kMESS_STREAMERINFO message. -/
def sendStreamerInfos (s : SocketState) (infos : List Nat) : SocketState :=
  if infos.isEmpty then s
  else
    if (collectInfos s.bitsInfo infos).2.isEmpty then
      { s with bitsInfo := (collectInfos s.bitsInfo infos).1 }
    else
      { bitsInfo := (collectInfos s.bitsInfo infos).1,
        sentMessages := s.sentMessages ++ [(collectInfos s.bitsInfo infos).2] }

/-- Run a sequence of SendStreamerInfos calls on one socket. -/
def runSends (s : SocketState) (calls : List (List Nat)) : SocketState :=
  calls.foldl sendStreamerInfos s

/-- Concatenation of a list of sent messages. -/
def sentFlat (msgs : List (List Nat)) : List Nat :=
  msgs.foldr (fun a b => a ++ b) []

/-- All streamer-info numbers ever sent on a socket, in order. -/
def allSent (s : SocketState) : List Nat :=
  sentFlat s.sentMessages

theorem encodeBE_length (w v : Nat) : (encodeBE w v).length = w := by
  induction w generalizing v with
  | zero => rfl
  | succ w ih => simp [encodeBE, ih]

theorem encodeBE_foldl (w v a : Nat) :
    (encodeBE w v).foldl (fun acc b => acc * 256 + b) a = a * 256 ^ w + v % 256 ^ w := by
  induction w generalizing a with
  | zero => simp [encodeBE, Nat.mod_one]
  | succ w ih =>
    simp only [encodeBE, List.foldl_cons]
    rw [ih, pow_succ, Nat.mod_mul]
    ring

theorem decodeBE_encodeBE (w v : Nat) (h : v < 256 ^ w) :
    decodeBE (encodeBE w v) = v := by
  unfold decodeBE
  rw [encodeBE_foldl]
  simp [Nat.mod_eq_of_lt h]

theorem writeValues_append (sz : Nat) (a b : List Nat) :
    writeValues sz (a ++ b) = writeValues sz a ++ writeValues sz b := by
  induction a with
  | nil => rfl
  | cons x a ih => simp [writeValues, ih]

theorem readValues_writeValues (sz : Nat) (vs rest : List Nat)
    (h : ∀ x ∈ vs, x < 256 ^ sz) :
    readValues sz vs.length (writeValues sz vs ++ rest) = some (vs, rest) := by
  induction vs with
  | nil => simp [writeValues, readValues]
  | cons v vs ih =>
    have hlen : (encodeBE sz v).length = sz := encodeBE_length sz v
    have hge : ¬ (encodeBE sz v ++ (writeValues sz vs ++ rest)).length < sz := by
      simp [List.length_append, hlen]
    simp only [writeValues, List.length_cons, List.append_assoc, readValues, hge, if_false]
    have htake : (encodeBE sz v ++ (writeValues sz vs ++ rest)).take sz = encodeBE sz v :=
      List.take_left' hlen
    have hdrop : (encodeBE sz v ++ (writeValues sz vs ++ rest)).drop sz = writeValues sz vs ++ rest :=
      List.drop_left' hlen
    rw [htake, hdrop, ih (fun x hx => h x (List.mem_cons_of_mem v hx)),
      decodeBE_encodeBE sz v (h v (List.mem_cons_self v vs))]

theorem readInstance_writeInstance_aux (es : List StreamerElement) (vss : List (List Nat))
    (rest : List Nat) (h : validInstance es vss) :
    ∃ out, readInstance es (writeInstance es vss ++ rest) = some (out, rest) ∧
      observEq es vss out := by
  induction h with
  | nil => exact ⟨[], by simp [writeInstance, readInstance], trivial⟩
  | cons hv hrest ih =>
    rename_i e vs es vss
    obtain ⟨out, hread, hobs⟩ := ih
    by_cases htr : e.transient
    · refine ⟨List.replicate e.len 0 :: out, ?_, ?_⟩
      · simp only [writeInstance, writeElement, htr, if_true, List.nil_append, readInstance,
          hread]
      · exact ⟨fun hfalse => by simp [htr] at hfalse, hobs⟩
    · have hb : e.transient = false := by simpa using htr
      refine ⟨vs :: out, ?_, fun _ => rfl, hobs⟩
      have hvals : readValues e.ty.size e.len
          (writeValues e.ty.size vs ++ (writeInstance es vss ++ rest)) =
          some (vs, writeInstance es vss ++ rest) := by
        rw [← hv.1]
        exact readValues_writeValues _ _ _ hv.2
      simp only [writeInstance, writeElement, hb, Bool.false_eq_true, if_false,
        List.append_assoc, readInstance, hvals, hread]

/-- C1: for every class descriptor and every valid instance, writing the
instance with the compiled write actions and reading the produced bytes
back with the compiled read actions yields a value observably equal to the
instance in every non-transient member. -/
theorem writeBuffer_readBuffer_roundtrip (es : List StreamerElement) (vss : List (List Nat))
    (h : validInstance es vss) :
    ∃ out, readInstance es (writeInstance es vss) = some (out, []) ∧ observEq es vss out := by
  have := readInstance_writeInstance_aux es vss [] h
  simpa using this

/-- Witness for C1 at a concrete descriptor and instance. -/
theorem writeBuffer_readBuffer_roundtrip_witness :
    ∃ out, readInstance [⟨"a", .pShort, 1, false, ""⟩, ⟨"t", .pChar, 2, true, "doc"⟩]
        (writeInstance [⟨"a", .pShort, 1, false, ""⟩, ⟨"t", .pChar, 2, true, "doc"⟩]
          [[515], [7, 8]]) = some (out, []) ∧
      observEq [⟨"a", .pShort, 1, false, ""⟩, ⟨"t", .pChar, 2, true, "doc"⟩]
        [[515], [7, 8]] out :=
  writeBuffer_readBuffer_roundtrip _ _
    (List.Forall₂.cons ⟨rfl, by decide⟩ (List.Forall₂.cons ⟨rfl, by decide⟩ List.Forall₂.nil))

/-- C2: reading an undersized (truncated) buffer fails for the whole read:
the consumed-bytes count is the negative error sentinel and no (partial)
object is produced; this is fatal, unlike an unrecognized version tag,
which is recoverable by skipping the declared byte count. -/
theorem readBuffer_truncation_fatal (es : List StreamerElement)
    (descVersion onFileVersion declaredCount : Nat) (bytes : List Nat)
    (h : bytes.length < declaredCount) :
    consumedBytes (readBufferRecord es descVersion onFileVersion declaredCount bytes) = -1 ∧
    consumedBytes (readBufferRecord es descVersion onFileVersion declaredCount bytes) < 0 ∧
    producedObject (readBufferRecord es descVersion onFileVersion declaredCount bytes) = none ∧
    (∀ bytes2 : List Nat, declaredCount ≤ bytes2.length → onFileVersion ≠ descVersion →
      readBufferRecord es descVersion onFileVersion declaredCount bytes2 =
        ReadOutcome.skipVersion declaredCount) := by
  have hrec : readBufferRecord es descVersion onFileVersion declaredCount bytes =
      ReadOutcome.truncated := by
    simp [readBufferRecord, h]
  refine ⟨by simp [hrec, consumedBytes], by simp [hrec, consumedBytes],
    by simp [hrec, producedObject], ?_⟩
  intro bytes2 h2 hne
  simp [readBufferRecord, Nat.not_lt.mpr h2, hne]

/-- Witness for C2: the spec scenario of a header declaring 40 bytes with
only 10 available. -/
theorem readBuffer_truncation_fatal_witness :
    consumedBytes (readBufferRecord [⟨"a", .pInt, 1, false, ""⟩] 3 3 40
      [0, 1, 2, 3, 4, 5, 6, 7, 8, 9]) = -1 ∧
    consumedBytes (readBufferRecord [⟨"a", .pInt, 1, false, ""⟩] 3 3 40
      [0, 1, 2, 3, 4, 5, 6, 7, 8, 9]) < 0 ∧
    producedObject (readBufferRecord [⟨"a", .pInt, 1, false, ""⟩] 3 3 40
      [0, 1, 2, 3, 4, 5, 6, 7, 8, 9]) = none ∧
    (∀ bytes2 : List Nat, 40 ≤ bytes2.length → 3 ≠ 3 →
      readBufferRecord [⟨"a", .pInt, 1, false, ""⟩] 3 3 40 bytes2 =
        ReadOutcome.skipVersion 40) :=
  readBuffer_truncation_fatal _ 3 3 40 _ (by decide)

theorem encListNat_inj (xs ys : List Nat) (h : encListNat xs = encListNat ys) : xs = ys := by
  induction xs generalizing ys with
  | nil =>
    cases ys with
    | nil => rfl
    | cons y ys => simp [encListNat] at h
  | cons x xs ih =>
    cases ys with
    | nil => simp [encListNat] at h
    | cons y ys =>
      have h2 : Nat.pair x (encListNat xs) = Nat.pair y (encListNat ys) := by
        simpa [encListNat] using h
      rw [Nat.pair_eq_pair] at h2
      rw [h2.1, ih ys h2.2]

theorem primKind_code_inj (a b : PrimKind) (h : a.code = b.code) : a = b := by
  cases a <;> cases b <;> simp_all [PrimKind.code]

theorem elemCode_eq_of_structural {a b : StreamerElement}
    (h : structuralPart a = structuralPart b) : elemCode a = elemCode b := by
  simp only [structuralPart, Prod.mk.injEq] at h
  simp [elemCode, h.1, h.2.1, h.2.2]

theorem map_elemCode_eq {es1 es2 : List StreamerElement}
    (h : es1.map structuralPart = es2.map structuralPart) :
    es1.map elemCode = es2.map elemCode := by
  induction es1 generalizing es2 with
  | nil =>
    cases es2 with
    | nil => rfl
    | cons b es2 => simp at h
  | cons a es1 ih =>
    cases es2 with
    | nil => simp at h
    | cons b es2 =>
      simp only [List.map_cons, List.cons.injEq] at h ⊢
      exact ⟨elemCode_eq_of_structural h.1, ih h.2⟩

/-- C3: GetCheckSum is identical for layouts differing only in metadata
outside the structural hash (documentation titles, transient flags), and
differs whenever a member's type is changed or a member is removed. -/
theorem getCheckSum_structural_spec :
    (∀ es1 es2 : List StreamerElement,
      es1.map structuralPart = es2.map structuralPart →
        getCheckSum es1 = getCheckSum es2) ∧
    (∀ (pre post : List StreamerElement) (e : StreamerElement) (t : PrimKind), t ≠ e.ty →
      getCheckSum (pre ++ { e with ty := t } :: post) ≠ getCheckSum (pre ++ e :: post)) ∧
    (∀ (pre post : List StreamerElement) (e : StreamerElement),
      getCheckSum (pre ++ post) ≠ getCheckSum (pre ++ e :: post)) := by
  refine ⟨?_, ?_, ?_⟩
  · intro es1 es2 h
    unfold getCheckSum
    rw [map_elemCode_eq h]
  · intro pre post e t ht heq
    have h := encListNat_inj _ _ heq
    rw [List.map_append, List.map_append, List.map_cons, List.map_cons] at h
    have h2 := List.append_cancel_left h
    rw [List.cons.injEq] at h2
    have h3 : elemCode { e with ty := t } = elemCode e := h2.1
    simp only [elemCode, Nat.pair_eq_pair] at h3
    exact ht (primKind_code_inj _ _ h3.2.1)
  · intro pre post e heq
    have h := encListNat_inj _ _ heq
    have hlen := congrArg List.length h
    simp only [List.length_map, List.length_append, List.length_cons] at hlen
    omega

/-- Witness for C3: a documentation-only change keeps the checksum, while
changing a member's type or removing a member changes it. -/
theorem getCheckSum_structural_spec_witness :
    getCheckSum [⟨"a", .pChar, 1, false, "old doc"⟩] =
      getCheckSum [⟨"a", .pChar, 1, true, "new doc"⟩] ∧
    getCheckSum [(⟨"a", .pInt, 1, false, ""⟩ : StreamerElement)] ≠
      getCheckSum [(⟨"a", .pChar, 1, false, ""⟩ : StreamerElement)] ∧
    getCheckSum [(⟨"a", .pChar, 1, false, ""⟩ : StreamerElement)] ≠
      getCheckSum [⟨"a", .pChar, 1, false, ""⟩, ⟨"b", .pInt, 1, false, ""⟩] :=
  ⟨getCheckSum_structural_spec.1 _ _ rfl,
    getCheckSum_structural_spec.2.1 [] [] ⟨"a", .pChar, 1, false, ""⟩ .pInt (by decide),
    getCheckSum_structural_spec.2.2 [⟨"a", .pChar, 1, false, ""⟩] [] ⟨"b", .pInt, 1, false, ""⟩⟩

theorem regMatch_eq (e : RegEntry) (n : String) (c : Nat) :
    (e.name == n && e.checksum == c) = true ↔ e.name = n ∧ e.checksum = c := by
  simp [Bool.and_eq_true, beq_iff_eq]

theorem countCanonical_nil (n : String) (c : Nat) : countCanonical [] n c = 0 := rfl

theorem countCanonical_cons (e : RegEntry) (reg : List RegEntry) (n : String) (c : Nat) :
    countCanonical (e :: reg) n c =
      (if e.name = n ∧ e.checksum = c then 1 else 0) + countCanonical reg n c := by
  simp only [countCanonical, List.filter_cons]
  by_cases h : (e.name == n && e.checksum == c) = true
  · rw [if_pos h, if_pos ((regMatch_eq e n c).mp h)]
    simp [Nat.add_comm]
  · rw [if_neg h, if_neg (fun hp => h ((regMatch_eq e n c).mpr hp))]
    simp

theorem countCanonical_append (a b : List RegEntry) (n : String) (c : Nat) :
    countCanonical (a ++ b) n c = countCanonical a n c + countCanonical b n c := by
  simp [countCanonical, List.filter_append]

theorem findCanonical_none_iff (reg : List RegEntry) (n : String) (c : Nat) :
    findCanonical reg n c = none ↔ countCanonical reg n c = 0 := by
  induction reg with
  | nil => simp [findCanonical, countCanonical_nil]
  | cons e rest ih =>
    rw [countCanonical_cons]
    by_cases h : e.name = n ∧ e.checksum = c
    · simp [findCanonical, h]
    · simp [findCanonical, h, ih]

theorem countCanonical_buildCheck (reg : List RegEntry) (m : String) (d fid : Nat)
    (n : String) (c : Nat) :
    countCanonical (buildCheck reg m d fid).1 n c =
      if findCanonical reg m d = none ∧ m = n ∧ d = c then countCanonical reg n c + 1
      else countCanonical reg n c := by
  unfold buildCheck
  cases hfind : findCanonical reg m d with
  | some x => simp [hfind]
  | none =>
    simp only [hfind, true_and]
    rw [countCanonical_append, countCanonical_cons, countCanonical_nil]
    by_cases h : m = n ∧ d = c
    · simp [h.1, h.2]
    · have : ¬ ((⟨m, d, fid⟩ : RegEntry).name = n ∧ (⟨m, d, fid⟩ : RegEntry).checksum = c) := h
      simp [this, h]

theorem runBuildChecks_invariant (calls : List (String × Nat × Nat)) :
    ∀ (reg : List RegEntry) (n : String) (c : Nat), countCanonical reg n c ≤ 1 →
      countCanonical (runBuildChecks reg calls) n c ≤ 1 ∧
      (countCanonical reg n c = 1 → countCanonical (runBuildChecks reg calls) n c = 1) ∧
      ((∃ fid, (n, c, fid) ∈ calls) → countCanonical (runBuildChecks reg calls) n c = 1) := by
  induction calls with
  | nil =>
    intro reg n c h
    refine ⟨h, fun h1 => h1, ?_⟩
    rintro ⟨fid, hmem⟩
    simp at hmem
  | cons call rest ih =>
    obtain ⟨m, d, fid⟩ := call
    intro reg n c h
    have hrun : runBuildChecks reg ((m, d, fid) :: rest) =
        runBuildChecks (buildCheck reg m d fid).1 rest := rfl
    have hcount := countCanonical_buildCheck reg m d fid n c
    have hle : countCanonical (buildCheck reg m d fid).1 n c ≤ 1 := by
      rw [hcount]
      by_cases hb : findCanonical reg m d = none ∧ m = n ∧ d = c
      · rw [if_pos hb]
        have h0 : countCanonical reg n c = 0 := by
          have := (findCanonical_none_iff reg m d).mp hb.1
          rwa [hb.2.1, hb.2.2] at this
        omega
      · rw [if_neg hb]; exact h
    have ihres := ih (buildCheck reg m d fid).1 n c hle
    rw [hrun]
    refine ⟨ihres.1, ?_, ?_⟩
    · intro h1
      apply ihres.2.1
      rw [hcount]
      by_cases hb : findCanonical reg m d = none ∧ m = n ∧ d = c
      · exfalso
        have h0 : countCanonical reg n c = 0 := by
          have := (findCanonical_none_iff reg m d).mp hb.1
          rwa [hb.2.1, hb.2.2] at this
        omega
      · rw [if_neg hb]; exact h1
    · rintro ⟨f2, hmem⟩
      rcases List.mem_cons.mp hmem with heq | htail
      · have hnm : m = n ∧ d = c := by
          have h1 : (n, c, f2).1 = (m, d, fid).1 := by rw [heq]
          have h2 : (n, c, f2).2.1 = (m, d, fid).2.1 := by rw [heq]
          exact ⟨h1.symm, h2.symm⟩
        apply ihres.2.1
        rw [hcount]
        by_cases hfind : findCanonical reg m d = none
        · rw [if_pos ⟨hfind, hnm⟩]
          have h0 : countCanonical reg n c = 0 := by
            have := (findCanonical_none_iff reg m d).mp hfind
            rwa [hnm.1, hnm.2] at this
          omega
        · rw [if_neg (fun hb => hfind hb.1)]
          have h0 : countCanonical reg n c ≠ 0 := by
            intro h0
            apply hfind
            rw [findCanonical_none_iff, hnm.1, hnm.2]
            exact h0
          omega
      · exact ihres.2.2 ⟨f2, htail⟩

/-- C4: any sequence of BuildCheck registrations leaves exactly one
canonical descriptor per (class name, checksum) pair: a matching file copy
is superseded by the canonical instance, an unmatched checksum registers a
new canonical version. -/
theorem buildCheck_registry_dedup (calls : List (String × Nat × Nat)) (n : String) (c : Nat) :
    countCanonical (runBuildChecks [] calls) n c ≤ 1 ∧
    ((∃ fid, (n, c, fid) ∈ calls) → countCanonical (runBuildChecks [] calls) n c = 1) := by
  have h := runBuildChecks_invariant calls [] n c (by rw [countCanonical_nil]; omega)
  exact ⟨h.1, h.2.2⟩

/-- Witness for C4: two files redeclaring the same (name, checksum) end up
with exactly one canonical registry entry. -/
theorem buildCheck_registry_dedup_witness :
    countCanonical (runBuildChecks [] [("A", 10, 1), ("A", 10, 2)]) "A" 10 ≤ 1 ∧
    ((∃ fid, (("A", 10, fid) : String × Nat × Nat) ∈
        [("A", 10, 1), ("A", 10, 2)]) →
      countCanonical (runBuildChecks [] [("A", 10, 1), ("A", 10, 2)]) "A" 10 = 1) :=
  buildCheck_registry_dedup [("A", 10, 1), ("A", 10, 2)] "A" 10

/-- C5: Compile is idempotent: on an already-compiled, non-invalidated
descriptor a later call is a no-op (the action-sequence variants are
unchanged), a compiled descriptor remains compiled, and compiling twice
equals compiling once. -/
theorem compile_idempotent (d : DescriptorState) :
    (d.actions.isSome = true → d.invalidated = false → compileDescriptor d = d) ∧
    (compileDescriptor d).actions.isSome = true ∧
    compileDescriptor (compileDescriptor d) = compileDescriptor d := by
  refine ⟨?_, ?_, ?_⟩
  · intro hs hi
    unfold compileDescriptor
    cases ha : d.actions with
    | none => rw [ha] at hs; simp at hs
    | some a => simp [hi]
  · unfold compileDescriptor
    cases ha : d.actions with
    | none => simp
    | some a =>
      by_cases hi : d.invalidated
      · simp [hi]
      · simp [hi, ha]
  · cases ha : d.actions with
    | none => simp [compileDescriptor, ha]
    | some a =>
      by_cases hi : d.invalidated
      · simp [compileDescriptor, ha, hi]
      · simp [compileDescriptor, ha, hi]

/-- Witness for C5 at a concrete compiled descriptor. -/
theorem compile_idempotent_witness :
    compileDescriptor ⟨[], some (compileActions []), false⟩ =
      ⟨[], some (compileActions []), false⟩ ∧
    (compileDescriptor ⟨[], some (compileActions []), false⟩).actions.isSome = true ∧
    compileDescriptor (compileDescriptor ⟨[], some (compileActions []), false⟩) =
      compileDescriptor ⟨[], some (compileActions []), false⟩ :=
  ⟨(compile_idempotent ⟨[], some (compileActions []), false⟩).1 rfl rfl,
    (compile_idempotent ⟨[], some (compileActions []), false⟩).2.1,
    (compile_idempotent ⟨[], some (compileActions []), false⟩).2.2⟩

theorem buildForAux_spec (rules : List SchemaRule) :
    ∀ claimed : List String,
      ((buildForAux claimed rules).1.map SchemaRule.target).Nodup ∧
      (∀ t ∈ (buildForAux claimed rules).1.map SchemaRule.target, t ∉ claimed) ∧
      (buildForAux claimed rules).1.Sublist rules ∧
      (∀ r ∈ rules, r.target ∈ claimed ∨
        r.target ∈ (buildForAux claimed rules).1.map SchemaRule.target) ∧
      (∀ r ∈ (buildForAux claimed rules).1,
        rules.find? (fun q => q.target == r.target) = some r) ∧
      (∀ w ∈ (buildForAux claimed rules).2, w ∈ claimed ∨
        w ∈ (buildForAux claimed rules).1.map SchemaRule.target) ∧
      (buildForAux claimed rules).1.length + (buildForAux claimed rules).2.length =
        rules.length := by
  induction rules with
  | nil => intro claimed; simp [buildForAux]
  | cons r rs ih =>
    intro claimed
    by_cases h : r.target ∈ claimed
    · have hrec := ih claimed
      simp only [buildForAux, if_pos h]
      refine ⟨hrec.1, hrec.2.1, hrec.2.2.1.cons r, ?_, ?_, ?_, by
        simp only [List.length_cons]
        have := hrec.2.2.2.2.2.2
        omega⟩
      · intro r2 hr2
        rcases List.mem_cons.mp hr2 with heq | htail
        · subst heq; exact Or.inl h
        · exact hrec.2.2.2.1 r2 htail
      · intro r2 hr2
        have hne : r.target ≠ r2.target := by
          intro hc
          exact hrec.2.1 r2.target (List.mem_map_of_mem SchemaRule.target hr2) (hc ▸ h)
        rw [List.find?_cons_of_neg _ (by simp [hne]), hrec.2.2.2.2.1 r2 hr2]
      · intro w hw
        rcases List.mem_cons.mp hw with heq | htail
        · subst heq; exact Or.inl h
        · exact hrec.2.2.2.2.2.1 w htail
    · have hrec := ih (r.target :: claimed)
      simp only [buildForAux, if_neg h]
      refine ⟨?_, ?_, hrec.2.2.1.cons₂ r, ?_, ?_, ?_, by
        simp only [List.length_cons]
        have := hrec.2.2.2.2.2.2
        omega⟩
      · simp only [List.map_cons, List.nodup_cons]
        refine ⟨?_, hrec.1⟩
        intro hmem
        have := hrec.2.1 r.target hmem
        simp at this
      · intro t ht
        simp only [List.map_cons, List.mem_cons] at ht
        rcases ht with heq | hmem
        · rw [heq]; exact h
        · have := hrec.2.1 t hmem
          intro hc
          exact this (List.mem_cons_of_mem _ hc)
      · intro r2 hr2
        rcases List.mem_cons.mp hr2 with heq | htail
        · subst heq; exact Or.inr (by simp)
        · rcases hrec.2.2.2.1 r2 htail with hcl | hap
          · rcases List.mem_cons.mp hcl with heq2 | hcl2
            · exact Or.inr (by simp [heq2])
            · exact Or.inl hcl2
          · exact Or.inr (by simp [List.mem_cons]; right; simpa using hap)
      · intro r2 hr2
        rcases List.mem_cons.mp hr2 with heq | htail
        · subst heq
          exact List.find?_cons_of_pos _ (by simp)
        · have hne : r.target ≠ r2.target := by
            intro hc
            exact hrec.2.1 r2.target (List.mem_map_of_mem SchemaRule.target htail)
              (by rw [← hc]; exact List.mem_cons_self _ _)
          rw [List.find?_cons_of_neg _ (by simp [hne]), hrec.2.2.2.2.1 r2 htail]
      · intro w hw
        rcases hrec.2.2.2.2.2.1 w hw with hcl | hap
        · rcases List.mem_cons.mp hcl with heq | hcl2
          · exact Or.inr (by simp [heq])
          · exact Or.inl hcl2
        · exact Or.inr (by simp [List.mem_cons]; right; simpa using hap)

/-- C6: BuildFor resolves conflicting evolution rules for the same target
member: the applied rules claim pairwise distinct targets (no rule applied
twice to one member), the applied rules are drawn from the processed rule
list in order, every target is served, each applied rule is the first
(highest-precedence) rule in the list claiming its target — so the
later/lower-precedence conflicting rule is the one ignored — every
warning names a target whose earlier rule survived, and each dropped rule
is reported by exactly one warning while processing continues. -/
theorem buildFor_conflict_policy (rules : List SchemaRule) :
    ((buildForRules rules).1.map SchemaRule.target).Nodup ∧
    (buildForRules rules).1.Sublist rules ∧
    (∀ r ∈ rules, r.target ∈ (buildForRules rules).1.map SchemaRule.target) ∧
    (∀ r ∈ (buildForRules rules).1,
      rules.find? (fun q => q.target == r.target) = some r) ∧
    (∀ w ∈ (buildForRules rules).2, w ∈ (buildForRules rules).1.map SchemaRule.target) ∧
    (buildForRules rules).1.length + (buildForRules rules).2.length = rules.length := by
  have h := buildForAux_spec rules []
  refine ⟨h.1, h.2.2.1, ?_, h.2.2.2.2.1, ?_, h.2.2.2.2.2.2⟩
  · intro r hr
    rcases h.2.2.2.1 r hr with hcl | hap
    · simp at hcl
    · exact hap
  · intro w hw
    rcases h.2.2.2.2.2.1 w hw with hcl | hap
    · simp at hcl
    · exact hap

/-- Witness for C6: of two rules conflicting on target x, the earlier rule
(char source) is the one applied, the later rule (int source) is ignored,
and the single warning names x. -/
theorem buildFor_conflict_policy_witness :
    buildForRules [⟨"x", .pChar⟩, ⟨"y", .pInt⟩, ⟨"x", .pInt⟩] =
      ([⟨"x", .pChar⟩, ⟨"y", .pInt⟩], ["x"]) ∧
    ((buildForRules [⟨"x", .pChar⟩, ⟨"y", .pInt⟩, ⟨"x", .pInt⟩]).1.map
      SchemaRule.target).Nodup ∧
    (buildForRules [⟨"x", .pChar⟩, ⟨"y", .pInt⟩, ⟨"x", .pInt⟩]).1.Sublist
      [⟨"x", .pChar⟩, ⟨"y", .pInt⟩, ⟨"x", .pInt⟩] ∧
    (∀ r ∈ (buildForRules [⟨"x", .pChar⟩, ⟨"y", .pInt⟩, ⟨"x", .pInt⟩]).1,
      ([⟨"x", .pChar⟩, ⟨"y", .pInt⟩, ⟨"x", .pInt⟩] : List SchemaRule).find?
        (fun q => q.target == r.target) = some r) ∧
    (buildForRules [⟨"x", .pChar⟩, ⟨"y", .pInt⟩, ⟨"x", .pInt⟩]).1.length +
      (buildForRules [⟨"x", .pChar⟩, ⟨"y", .pInt⟩, ⟨"x", .pInt⟩]).2.length = 3 :=
  ⟨by decide,
    (buildFor_conflict_policy [⟨"x", .pChar⟩, ⟨"y", .pInt⟩, ⟨"x", .pInt⟩]).1,
    (buildFor_conflict_policy [⟨"x", .pChar⟩, ⟨"y", .pInt⟩, ⟨"x", .pInt⟩]).2.1,
    (buildFor_conflict_policy [⟨"x", .pChar⟩, ⟨"y", .pInt⟩, ⟨"x", .pInt⟩]).2.2.2.1,
    (buildFor_conflict_policy [⟨"x", .pChar⟩, ⟨"y", .pInt⟩, ⟨"x", .pInt⟩]).2.2.2.2.2⟩

theorem fuseItems_eq_nil {items : List (PrimKind × List Nat)}
    (h : fuseItems items = []) : items = [] := by
  cases items with
  | nil => rfl
  | cons x rest =>
    obtain ⟨t, vs⟩ := x
    simp only [fuseItems] at h
    cases hf : fuseItems rest with
    | nil => rw [hf] at h; simp at h
    | cons y out =>
      obtain ⟨u, ws⟩ := y
      rw [hf] at h
      by_cases ht : t = u
      · simp [ht] at h
      · simp [ht] at h

/-- C7: executing the optimized action sequence obtained by fusing
contiguous runs of same-type primitive elements into single array-copy
actions produces byte-identical output to the unfused element-by-element
sequence, and the fused sequence has no two adjacent same-type items left. -/
theorem fused_write_byte_identical (items : List (PrimKind × List Nat)) :
    execWriteItems (fuseItems items) = execWriteItems items ∧
    (fuseItems items).Chain' (fun a b => a.1 ≠ b.1) := by
  induction items with
  | nil => exact ⟨rfl, List.chain'_nil⟩
  | cons x rest ih =>
    obtain ⟨t, vs⟩ := x
    obtain ⟨ihe, ihc⟩ := ih
    cases hf : fuseItems rest with
    | nil =>
      have hnil : rest = [] := fuseItems_eq_nil hf
      subst hnil
      exact ⟨by simp [fuseItems, execWriteItems], by simp [fuseItems]⟩
    | cons y out =>
      obtain ⟨u, ws⟩ := y
      rw [hf] at ihe ihc
      by_cases ht : t = u
      · subst ht
        have hfuse : fuseItems ((t, vs) :: rest) = (t, vs ++ ws) :: out := by
          simp [fuseItems, hf]
        constructor
        · rw [hfuse]
          simp only [execWriteItems, writeValues_append, List.append_assoc]
          rw [← ihe]
          simp [execWriteItems]
        · rw [hfuse]
          cases out with
          | nil => exact List.chain'_singleton _
          | cons z out2 =>
            rw [List.chain'_cons] at ihc ⊢
            exact ⟨ihc.1, ihc.2⟩
      · have hfuse : fuseItems ((t, vs) :: rest) = (t, vs) :: (u, ws) :: out := by
          simp [fuseItems, hf, ht]
        constructor
        · rw [hfuse]
          simp only [execWriteItems]
          rw [← ihe]
          simp [execWriteItems]
        · rw [hfuse, List.chain'_cons]
          exact ⟨ht, ihc⟩

theorem runReadActions_exact (onFile : List StreamerElement) (names : List String)
    (rec next : List Nat) (h : rec.length = totalOnFileSize onFile) :
    runReadActions (compileRead onFile names) (rec ++ next) = some next := by
  induction onFile generalizing rec with
  | nil =>
    have hnil : rec = [] := List.length_eq_zero.mp (by simpa [totalOnFileSize] using h)
    subst hnil
    simp [compileRead, runReadActions]
  | cons e es ih =>
    have htot : rec.length = elemByteSize e + totalOnFileSize es := by
      simpa [totalOnFileSize] using h
    have hsize : elemByteSize e ≤ rec.length := by omega
    have hdrop : (rec ++ next).drop (elemByteSize e) = rec.drop (elemByteSize e) ++ next := by
      rw [List.drop_append_eq_append_drop, Nat.sub_eq_zero_of_le hsize, List.drop_zero]
    have hlen2 : (rec.drop (elemByteSize e)).length = totalOnFileSize es := by
      rw [List.length_drop]; omega
    have hnotlt : ¬ (rec ++ next).length < elemByteSize e := by
      rw [List.length_append]; omega
    have htail := ih (rec.drop (elemByteSize e)) hlen2
    simp only [compileRead, List.map_cons, compileReadElem]
    by_cases hmem : e.name ∈ names
    · rw [if_pos hmem]
      show runReadActions (ReadAction.readPrim e.ty e.len :: es.map (compileReadElem names))
        (rec ++ next) = some next
      rw [runReadActions]
      have hnotlt2 : ¬ (rec ++ next).length < e.ty.size * e.len := hnotlt
      rw [if_neg hnotlt2]
      show runReadActions (compileRead es names) ((rec ++ next).drop (elemByteSize e)) = some next
      rw [hdrop]
      exact htail
    · rw [if_neg hmem]
      show runReadActions (ReadAction.skipBytes (elemByteSize e) :: es.map (compileReadElem names))
        (rec ++ next) = some next
      rw [runReadActions, if_neg hnotlt]
      show runReadActions (compileRead es names) ((rec ++ next).drop (elemByteSize e)) = some next
      rw [hdrop]
      exact htail

/-- C8: an extra on-file element absent from the in-memory descriptor
compiles to a skip action whose byte count comes from the on-file
element's own type and length, and executing the compiled read actions on
a record written under the on-file layout consumes exactly the record's
bytes, leaving the cursor aligned at the start of the next record. -/
theorem readBufferSkip_aligns (onFile : List StreamerElement) (names : List String)
    (rec next : List Nat) (h : rec.length = totalOnFileSize onFile) :
    (∀ e ∈ onFile, e.name ∉ names →
      compileReadElem names e = ReadAction.skipBytes (elemByteSize e)) ∧
    runReadActions (compileRead onFile names) (rec ++ next) = some next :=
  ⟨fun _ _ hne => by simp [compileReadElem, hne],
    runReadActions_exact onFile names rec next h⟩

/-- Witness for C8: a version-N+1 record with an extra two-byte member read
by the version-N descriptor lands the cursor exactly on the next record. -/
theorem readBufferSkip_aligns_witness :
    (∀ e ∈ ([⟨"a", .pInt, 1, false, ""⟩, ⟨"d", .pShort, 1, false, ""⟩] :
        List StreamerElement), e.name ∉ ["a"] →
      compileReadElem ["a"] e = ReadAction.skipBytes (elemByteSize e)) ∧
    runReadActions
      (compileRead [⟨"a", .pInt, 1, false, ""⟩, ⟨"d", .pShort, 1, false, ""⟩] ["a"])
      ([0, 0, 0, 5, 1, 2] ++ [9]) = some [9] :=
  readBufferSkip_aligns [⟨"a", .pInt, 1, false, ""⟩, ⟨"d", .pShort, 1, false, ""⟩]
    ["a"] [0, 0, 0, 5, 1, 2] [9] (by decide)

theorem instMatch_eq (d : DescInstance) (n : String) (v : Nat) :
    (d.name == n && d.version == v) = true ↔ d.name = n ∧ d.version = v := by
  simp [Bool.and_eq_true, beq_iff_eq]

theorem countInstances_nil (n : String) (v : Nat) : countInstances [] n v = 0 := rfl

theorem countInstances_cons (d : DescInstance) (reg : List DescInstance)
    (n : String) (v : Nat) :
    countInstances (d :: reg) n v =
      (if d.name = n ∧ d.version = v then 1 else 0) + countInstances reg n v := by
  simp only [countInstances, List.filter_cons]
  by_cases h : (d.name == n && d.version == v) = true
  · rw [if_pos h, if_pos ((instMatch_eq d n v).mp h)]
    simp [Nat.add_comm]
  · rw [if_neg h, if_neg (fun hp => h ((instMatch_eq d n v).mpr hp))]
    simp

theorem countInstances_append (a b : List DescInstance) (n : String) (v : Nat) :
    countInstances (a ++ b) n v = countInstances a n v + countInstances b n v := by
  simp [countInstances, List.filter_append]

theorem countInstances_any_false (reg : List DescInstance) (n : String) (v : Nat)
    (h : reg.any (fun d => d.name == n && d.version == v) = false) :
    countInstances reg n v = 0 := by
  induction reg with
  | nil => rfl
  | cons d rest ih =>
    simp only [List.any_cons, Bool.or_eq_false_iff] at h
    rw [countInstances_cons, ih h.2,
      if_neg (fun hp => by rw [(instMatch_eq d n v).mpr hp] at h; exact absurd h.1 (by simp))]

theorem countInstances_any_true (reg : List DescInstance) (n : String) (v : Nat)
    (h : reg.any (fun d => d.name == n && d.version == v) = true) :
    countInstances reg n v ≠ 0 := by
  induction reg with
  | nil => simp at h
  | cons d rest ih =>
    simp only [List.any_cons, Bool.or_eq_true] at h
    rw [countInstances_cons]
    rcases h with hd | htail
    · rw [if_pos ((instMatch_eq d n v).mp hd)]; omega
    · have := ih htail; omega

theorem countInstances_map_compile (reg : List DescInstance) (n0 : String) (v0 : Nat)
    (n : String) (v : Nat) :
    countInstances (reg.map (fun d =>
      if d.name == n0 && d.version == v0 then { d with compiled := true } else d)) n v =
      countInstances reg n v := by
  induction reg with
  | nil => rfl
  | cons d rest ih =>
    simp only [List.map_cons]
    rw [countInstances_cons, countInstances_cons, ih]
    have hsame : ((if d.name == n0 && d.version == v0 then
        { d with compiled := true } else d).name = n ∧
        (if d.name == n0 && d.version == v0 then
          { d with compiled := true } else d).version = v) ↔
        (d.name = n ∧ d.version = v) := by
      by_cases hc : (d.name == n0 && d.version == v0) = true <;> simp [hc]
    by_cases h : d.name = n ∧ d.version = v
    · rw [if_pos h, if_pos (hsame.mpr h)]
    · rw [if_neg h, if_neg (fun hp => h (hsame.mp hp))]

theorem applyRegistryOp_count (reg : List DescInstance) (op : RegistryOp)
    (n : String) (v : Nat) (h : countInstances reg n v ≤ 1) :
    countInstances (applyRegistryOp reg op) n v ≤ 1 ∧
    (countInstances reg n v = 1 → countInstances (applyRegistryOp reg op) n v = 1) ∧
    (op = RegistryOp.publish n v → countInstances (applyRegistryOp reg op) n v = 1) := by
  cases op with
  | publish m w =>
    simp only [applyRegistryOp]
    cases hany : reg.any (fun d => d.name == m && d.version == w) with
    | true =>
      rw [if_pos rfl]
      refine ⟨h, fun h1 => h1, ?_⟩
      intro heq
      injection heq with hmn hwv
      subst hmn
      subst hwv
      have hne := countInstances_any_true reg m w hany
      omega
    | false =>
      simp only [Bool.false_eq_true, if_false]
      rw [countInstances_append, countInstances_cons, countInstances_nil]
      by_cases hm : m = n ∧ w = v
      · have h0 : countInstances reg n v = 0 := by
          apply countInstances_any_false
          rw [← hm.1, ← hm.2]; exact hany
        rw [if_pos (by simp [hm.1, hm.2])]
        exact ⟨by omega, by omega, fun _ => by omega⟩
      · rw [if_neg (fun hp => hm ⟨hp.1, hp.2⟩)]
        refine ⟨by omega, by omega, ?_⟩
        intro heq
        exfalso
        have h1 : (RegistryOp.publish m w : RegistryOp) = RegistryOp.publish n v := heq
        cases h1
        exact hm ⟨rfl, rfl⟩
  | compileInPlace m w =>
    simp only [applyRegistryOp]
    rw [countInstances_map_compile]
    exact ⟨h, fun h1 => h1, fun heq => by cases heq⟩
  | updateLinks m w =>
    exact ⟨h, fun h1 => h1, fun heq => by cases heq⟩

theorem runRegistryOps_invariant (ops : List RegistryOp) :
    ∀ (reg : List DescInstance) (n : String) (v : Nat), countInstances reg n v ≤ 1 →
      countInstances (runRegistryOps reg ops) n v ≤ 1 ∧
      (countInstances reg n v = 1 → countInstances (runRegistryOps reg ops) n v = 1) ∧
      (RegistryOp.publish n v ∈ ops → countInstances (runRegistryOps reg ops) n v = 1) := by
  induction ops with
  | nil =>
    intro reg n v h
    exact ⟨h, fun h1 => h1, fun hmem => by simp at hmem⟩
  | cons op rest ih =>
    intro reg n v h
    have hstep := applyRegistryOp_count reg op n v h
    have hrun : runRegistryOps reg (op :: rest) =
        runRegistryOps (applyRegistryOp reg op) rest := rfl
    have ihres := ih (applyRegistryOp reg op) n v hstep.1
    rw [hrun]
    refine ⟨ihres.1, fun h1 => ihres.2.1 (hstep.2.1 h1), ?_⟩
    intro hmem
    rcases List.mem_cons.mp hmem with heq | htail
    · exact ihres.2.1 (hstep.2.2 heq.symm)
    · exact ihres.2.2 htail

/-- C9: a TStreamerInfo cannot be copied (the interface deletes the copy
constructor and copy assignment), so under the operations the interface
exposes the registry never holds two instances of one (class name,
version): the canonical instance published for that pair is unique. -/
theorem streamerInfo_no_duplicate_instance (ops : List RegistryOp) (n : String) (v : Nat) :
    countInstances (runRegistryOps [] ops) n v ≤ 1 ∧
    (RegistryOp.publish n v ∈ ops → countInstances (runRegistryOps [] ops) n v = 1) := by
  have h := runRegistryOps_invariant ops [] n v (by rw [countInstances_nil]; omega)
  exact ⟨h.1, h.2.2⟩

/-- Witness for C9: publishing the same (name, version) twice and compiling
it leaves exactly one instance. -/
theorem streamerInfo_no_duplicate_instance_witness :
    countInstances (runRegistryOps []
      [RegistryOp.publish "A" 1, RegistryOp.publish "A" 1,
        RegistryOp.compileInPlace "A" 1]) "A" 1 ≤ 1 ∧
    (RegistryOp.publish "A" 1 ∈
        [RegistryOp.publish "A" 1, RegistryOp.publish "A" 1,
          RegistryOp.compileInPlace "A" 1] →
      countInstances (runRegistryOps []
        [RegistryOp.publish "A" 1, RegistryOp.publish "A" 1,
          RegistryOp.compileInPlace "A" 1]) "A" 1 = 1) :=
  streamerInfo_no_duplicate_instance
    [RegistryOp.publish "A" 1, RegistryOp.publish "A" 1,
      RegistryOp.compileInPlace "A" 1] "A" 1

theorem testBit_setBit_self (bits : List Nat) (u : Nat) :
    testBitNumber (setBitNumber bits u) u = true := by
  simp only [testBitNumber, setBitNumber, decide_eq_true_eq]
  split
  · assumption
  · exact List.mem_cons_self u bits

theorem testBit_setBit_mono (bits : List Nat) (u x : Nat)
    (h : testBitNumber bits x = true) : testBitNumber (setBitNumber bits u) x = true := by
  simp only [testBitNumber, setBitNumber, decide_eq_true_eq] at h ⊢
  split
  · exact h
  · exact List.mem_cons_of_mem u h

theorem collectInfos_spec (infos : List Nat) :
    ∀ bits : List Nat,
      (collectInfos bits infos).2.Nodup ∧
      (∀ u ∈ (collectInfos bits infos).2, testBitNumber bits u = false) ∧
      (∀ u, testBitNumber bits u = true →
        testBitNumber (collectInfos bits infos).1 u = true) ∧
      (∀ u ∈ (collectInfos bits infos).2,
        testBitNumber (collectInfos bits infos).1 u = true) := by
  induction infos with
  | nil => intro bits; simp [collectInfos]
  | cons uid rest ih =>
    intro bits
    cases hb : testBitNumber bits uid with
    | true =>
      simp only [collectInfos, hb, if_true]
      exact ih bits
    | false =>
      have hrec := ih (setBitNumber bits uid)
      simp only [collectInfos, hb, Bool.false_eq_true, if_false]
      refine ⟨?_, ?_, ?_, ?_⟩
      · refine List.nodup_cons.mpr ⟨?_, hrec.1⟩
        intro hmem
        have hx := hrec.2.1 uid hmem
        rw [testBit_setBit_self] at hx
        exact absurd hx (by simp)
      · intro u hu
        rcases List.mem_cons.mp hu with heq | htail
        · rw [heq]; exact hb
        · have hx := hrec.2.1 u htail
          cases hq : testBitNumber bits u with
          | false => rfl
          | true =>
            rw [testBit_setBit_mono bits uid u hq] at hx
            exact absurd hx (by simp)
      · intro u hu
        exact hrec.2.2.1 u (testBit_setBit_mono bits uid u hu)
      · intro u hu
        rcases List.mem_cons.mp hu with heq | htail
        · rw [heq]; exact hrec.2.2.1 uid (testBit_setBit_self bits uid)
        · exact hrec.2.2.2 u htail

theorem sentFlat_snoc (msgs : List (List Nat)) (m : List Nat) :
    sentFlat (msgs ++ [m]) = sentFlat msgs ++ m := by
  induction msgs with
  | nil => simp [sentFlat]
  | cons x l ih =>
    simp only [sentFlat, List.cons_append, List.foldr_cons] at *
    rw [ih, List.append_assoc]

theorem sendStreamerInfos_invariant (s : SocketState) (infos : List Nat)
    (h1 : (allSent s).Nodup)
    (h2 : ∀ u ∈ allSent s, testBitNumber s.bitsInfo u = true) :
    (allSent (sendStreamerInfos s infos)).Nodup ∧
    ∀ u ∈ allSent (sendStreamerInfos s infos),
      testBitNumber (sendStreamerInfos s infos).bitsInfo u = true := by
  unfold sendStreamerInfos
  cases he : infos.isEmpty with
  | true => exact ⟨h1, h2⟩
  | false =>
    simp only [Bool.false_eq_true, if_false]
    have hcol := collectInfos_spec infos s.bitsInfo
    cases hml : (collectInfos s.bitsInfo infos).2.isEmpty with
    | true =>
      simp only [if_pos rfl]
      exact ⟨h1, fun u hu => hcol.2.2.1 u (h2 u hu)⟩
    | false =>
      simp only [Bool.false_eq_true, if_false]
      have hflat : allSent ⟨(collectInfos s.bitsInfo infos).1,
          s.sentMessages ++ [(collectInfos s.bitsInfo infos).2]⟩ =
          allSent s ++ (collectInfos s.bitsInfo infos).2 := by
        simp only [allSent]
        exact sentFlat_snoc s.sentMessages (collectInfos s.bitsInfo infos).2
      constructor
      · rw [hflat]
        refine List.Nodup.append h1 hcol.1 ?_
        intro u hu hu2
        have ht := h2 u hu
        have hf := hcol.2.1 u hu2
        rw [ht] at hf
        exact absurd hf (by simp)
      · intro u hu
        rw [hflat] at hu
        rcases List.mem_append.mp hu with hleft | hright
        · exact hcol.2.2.1 u (h2 u hleft)
        · exact hcol.2.2.2 u hright

theorem runSends_invariant (calls : List (List Nat)) :
    ∀ s : SocketState, (allSent s).Nodup →
      (∀ u ∈ allSent s, testBitNumber s.bitsInfo u = true) →
      (allSent (runSends s calls)).Nodup ∧
      ∀ u ∈ allSent (runSends s calls),
        testBitNumber (runSends s calls).bitsInfo u = true := by
  induction calls with
  | nil => intro s h1 h2; exact ⟨h1, h2⟩
  | cons c rest ih =>
    intro s h1 h2
    have hstep := sendStreamerInfos_invariant s c h1 h2
    exact ih (sendStreamerInfos s c) hstep.1 hstep.2

/-- C10: across a socket's whole lifetime, SendStreamerInfos sends each
streamer info (by its unique number) at most once: the numbers sent over
all kMESS_STREAMERINFO messages are pairwise distinct, and every sent
number has its bit recorded in the socket's fBitsInfo. -/
theorem sendStreamerInfos_at_most_once (calls : List (List Nat)) :
    (allSent (runSends ⟨[], []⟩ calls)).Nodup ∧
    ∀ u ∈ allSent (runSends ⟨[], []⟩ calls),
      testBitNumber (runSends ⟨[], []⟩ calls).bitsInfo u = true :=
  runSends_invariant calls ⟨[], []⟩ (by simp [allSent, sentFlat])
    (by simp [allSent, sentFlat])

/-- Witness for C10 at a concrete call sequence with repeated numbers. -/
theorem sendStreamerInfos_at_most_once_witness :
    (allSent (runSends ⟨[], []⟩ [[1, 2, 1], [2, 3], [1, 3, 4]])).Nodup ∧
    ∀ u ∈ allSent (runSends ⟨[], []⟩ [[1, 2, 1], [2, 3], [1, 3, 4]]),
      testBitNumber (runSends ⟨[], []⟩ [[1, 2, 1], [2, 3], [1, 3, 4]]).bitsInfo u = true :=
  sendStreamerInfos_at_most_once [[1, 2, 1], [2, 3], [1, 3, 4]]
